import Mathlib

set_option maxRecDepth 10000

/-!
Verification development for the Read-Only-View matching and enforcement core.

The definitions below are shallow embeddings, translated from the
repository sources:
  * `src/src/matcher.ts` (path normalizer, glob compiler, pattern matcher,
    policy evaluator, compiled-pattern cache),
  * `src/src/rule-limits.ts` (rule volume limiter),
  * the enforcement service (scheduler, per-leaf forcing primitive).
JavaScript strings are modelled as Lean `String`/`List Char`; JS `Map`
iteration order is modelled as an association list in insertion order;
async/await interleaving is modelled by explicit state passing.
-/

namespace ReadOnlyView

/-- JS `String.prototype.trim`-style whitespace test (ASCII fragment). -/
def isWsChar (c : Char) : Bool := c.isWhitespace

/-- Drop whitespace from both ends of a character list (JS `trim`). -/
def trimChars (l : List Char) : List Char :=
  ((l.dropWhile isWsChar).reverse.dropWhile isWsChar).reverse

/-- `replace(/\\/g, '/')`: every backslash becomes a slash. -/
def backslashToSlash (l : List Char) : List Char :=
  l.map (fun c => if c = '\\' then '/' else c)

/-- `replace(/^(\.\/)+/, '')`: strip the maximal run of leading `./`. -/
def stripDotSlashAux : List Char → List Char
  | '.' :: '/' :: rest => stripDotSlashAux rest
  | l => l

/-- Worker for `collapseSlashes`: the flag records whether the previous
character was a slash (in which case further slashes are dropped). -/
def collapseSlashesAux : Bool → List Char → List Char
  | _, [] => []
  | prevSlash, c :: rest =>
    if c = '/' then
      if prevSlash then collapseSlashesAux true rest
      else '/' :: collapseSlashesAux true rest
    else c :: collapseSlashesAux false rest

/-- `replace(/\/+/g, '/')`: collapse every run of slashes to one slash. -/
def collapseSlashes (l : List Char) : List Char :=
  collapseSlashesAux false l

/-- Translated from `normalizeVaultPath` (src/src/matcher.ts:51-57):
trim, `\`→`/`, strip leading `./` runs, collapse `/` runs, in that order. -/
def normalizeVaultPath (path : String) : String :=
  ⟨collapseSlashes (stripDotSlashAux (backslashToSlash (trimChars path.data)))⟩

/-- JS `startsWith`, computed on the underlying character lists. -/
def strStartsWith (s pre : String) : Bool := pre.data.isPrefixOf s.data

/-- JS `endsWith`, computed on the underlying character lists. -/
def strEndsWith (s suf : String) : Bool := suf.data.isSuffixOf s.data

/-- JS `includes(c)` for a single character. -/
def strContainsChar (s : String) (c : Char) : Bool := s.data.contains c

/-- JS `toLowerCase` (ASCII fragment), character by character. -/
def strToLower (s : String) : String := ⟨s.data.map Char.toLower⟩

/-- Translated from `normalizeForCase` (src/src/matcher.ts:63-65). -/
def normalizeForCase (value : String) (caseSensitive : Bool) : String :=
  if caseSensitive then value else strToLower value

/-- Translated from `applyPrefixModeRuleNormalization`
(src/src/matcher.ts:67-73): bare folder names get a trailing `/`. -/
def applyPrefixModeRuleNormalization (pat : String) : String :=
  let hasWildcard := strContainsChar pat '*' || strContainsChar pat '?'
  if hasWildcard || strEndsWith pat "/" || strEndsWith pat ".md" then pat
  else pat ++ "/"

/-- One compiled token of the glob-to-regex translation
(`compileGlobToRegex`, src/src/matcher.ts:75-115).  Each constructor is
one regex fragment appended by the compile loop:
`lit c` = the escaped literal character, `anySeg` = `[^/]*` (bare `*`),
`anyRun` = `.*` (bare `**`), `oneNonSlash` = `[^/]` (`?`),
`slashGlobSlash` = `/(?:.*/)?` (the `/**/` token). -/
inductive GlobTok where
  | lit (c : Char)
  | anySeg
  | anyRun
  | oneNonSlash
  | slashGlobSlash
deriving Repr, DecidableEq

/-- Translated from the loop body of `compileGlobToRegex`
(src/src/matcher.ts:83-109): the `/**/` lookahead is checked first and
consumes four characters; `**` consumes two; `*`, `?` and literals one. -/
def compileGlobToks : List Char → List GlobTok
  | '/' :: '*' :: '*' :: '/' :: rest => .slashGlobSlash :: compileGlobToks rest
  | '*' :: '*' :: rest => .anyRun :: compileGlobToks rest
  | '*' :: rest => .anySeg :: compileGlobToks rest
  | '?' :: rest => .oneNonSlash :: compileGlobToks rest
  | c :: rest => .lit c :: compileGlobToks rest
  | [] => []

/-- Can the remaining regex fragments match the empty string?  Only the
`[^/]*` and `.*` fragments are nullable; all others require a character. -/
def nullToks : List GlobTok → Bool
  | [] => true
  | .anySeg :: ts => nullToks ts
  | .anyRun :: ts => nullToks ts
  | _ => false

/-- One-character step of the compiled pattern: all token suffixes that can
remain after the fragments `ts` consume the character `d`.
`[^/]*` and `.*` may either consume `d` and stay or defer to the rest;
`/(?:.*/)?` consumes a `/` and leaves either the rest or `.*` `/` rest
(the unrolled optional group). -/
def deltaTok : List GlobTok → Char → List (List GlobTok)
  | [], _ => []
  | .lit c :: ts, d => if c = d then [ts] else []
  | .oneNonSlash :: ts, d => if d = '/' then [] else [ts]
  | .anySeg :: ts, d =>
      (if d = '/' then [] else [GlobTok.anySeg :: ts]) ++ deltaTok ts d
  | .anyRun :: ts, d => (GlobTok.anyRun :: ts) :: deltaTok ts d
  | .slashGlobSlash :: ts, d =>
      if d = '/' then [ts, GlobTok.anyRun :: .lit '/' :: ts] else []

/-- Anchored run of the compiled pattern over the whole input: consume the
input character by character through `deltaTok` and accept only when the
full input is exhausted with a nullable suffix left — the semantics of
`new RegExp('^' ++ fragments ++ '$').test(s)`. -/
def nfaRun : List (List GlobTok) → List Char → Bool
  | states, [] => states.any nullToks
  | states, d :: ds => nfaRun (states.flatMap (fun ts => deltaTok ts d)) ds

/-- Full-string matcher for a compiled token list against an input. -/
def toksMatch (ts : List GlobTok) (ds : List Char) : Bool :=
  nfaRun [ts] ds

/-- The test of the compiled glob regex against a (normalized, case-folded)
path: `compileGlobToRegex(pattern, cs).test(path)`.  The regex cache of the
source only memoizes the compiled value per key, so its presence does not
change this result; it is modelled separately below. -/
def globRegexTest (pat s : String) : Bool :=
  toksMatch (compileGlobToks pat.data) s.data

/-- Translated from `MatchPathOptions` (src/src/matcher.ts:21-24). -/
structure MatchPathOptions where
  useGlobPatterns : Bool
  caseSensitive : Bool
deriving Repr, DecidableEq

/-- Translated from `matchPath` (src/src/matcher.ts:117-130). -/
def matchPath (filePath pat : String) (options : MatchPathOptions) : Bool :=
  let normalizedFilePath := normalizeForCase (normalizeVaultPath filePath) options.caseSensitive
  let normalizedPattern := normalizeForCase (normalizeVaultPath pat) options.caseSensitive
  if normalizedFilePath = "" || normalizedPattern = "" then false
  else if options.useGlobPatterns then
    globRegexTest normalizedPattern normalizedFilePath
  else
    strStartsWith normalizedFilePath (applyPrefixModeRuleNormalization normalizedPattern)

/-- Translated from `ForceReadModeSettings` (src/src/matcher.ts:1-9). -/
structure ForceReadModeSettings where
  enabled : Bool
  useGlobPatterns : Bool
  caseSensitive : Bool
  debug : Bool
  debugVerbosePaths : Bool
  includeRules : List String
  excludeRules : List String
deriving Repr

/-- Translated from `shouldForceReadOnly` (src/src/matcher.ts:132-154):
enabled gate, `.md` gate on the normalized path, then `some`-matching over
the raw `settings.includeRules` / `settings.excludeRules`. -/
def shouldForceReadOnly (filePath : String) (settings : ForceReadModeSettings) : Bool :=
  if !settings.enabled then false
  else
    let normalizedFilePath := normalizeVaultPath filePath
    if !(strEndsWith (strToLower normalizedFilePath) ".md") then false
    else
      let options : MatchPathOptions :=
        { useGlobPatterns := settings.useGlobPatterns, caseSensitive := settings.caseSensitive }
      let hasIncludeMatch := settings.includeRules.any (fun rule => matchPath normalizedFilePath rule options)
      if !hasIncludeMatch then false
      else
        let hasExcludeMatch := settings.excludeRules.any (fun rule => matchPath normalizedFilePath rule options)
        !hasExcludeMatch

/-!
## Rule volume limiter (src/src/rule-limits.ts)

The limiter's numeric constants live in `src/constants.ts`, which is not
part of the provided sources; only `rule-limits.ts` imports them.
-/

/-- Modelled from the spec: `RULE_LIMIT_INCLUDE_MAX` from the missing
`src/constants.ts` (§4.2 recommends include cap 200; the repository tests
assert 200). -/
def RULE_LIMIT_INCLUDE_MAX : Nat := 200

/-- Modelled from the spec: `RULE_LIMIT_EXCLUDE_MAX` from the missing
`src/constants.ts` (§4.2 recommends exclude cap 300; the repository tests
assert 300). -/
def RULE_LIMIT_EXCLUDE_MAX : Nat := 300

/-- Modelled from the spec: `RULE_LIMIT_TOTAL_MAX` from the missing
`src/constants.ts` (§4.2 recommends total cap 400; the repository tests
assert 400). -/
def RULE_LIMIT_TOTAL_MAX : Nat := 400

/-- Modelled from the spec: `RULE_WARNING_SOFT_THRESHOLD` from the missing
`src/constants.ts` (§4.2 recommends soft threshold 50). -/
def RULE_WARNING_SOFT_THRESHOLD : Nat := 50

/-- Modelled from the spec: `RULE_WARNING_STRONG_THRESHOLD` from the
missing `src/constants.ts` (§4.2 recommends strong threshold 150). -/
def RULE_WARNING_STRONG_THRESHOLD : Nat := 150

/-- Translated from `EffectiveRuleEntry` (src/src/rule-limits.ts:10-13). -/
structure EffectiveRuleEntry where
  value : String
  lineIndex : Nat
deriving Repr, DecidableEq

/-- Translated from `RuleVolumeWarningLevel` (src/src/rule-limits.ts:15). -/
inductive RuleVolumeWarningLevel where
  | none
  | soft
  | strong
deriving Repr, DecidableEq

/-- Translated from `EffectiveRulesResult` (src/src/rule-limits.ts:17-37);
the `counts`/`rawCounts` sub-objects are flattened into fields. -/
structure EffectiveRulesResult where
  effectiveIncludeRules : List String
  effectiveExcludeRules : List String
  ignoredIncludeLineIndexes : List Nat
  ignoredExcludeLineIndexes : List Nat
  includeUsed : Nat
  excludeUsed : Nat
  totalUsed : Nat
  includeIgnored : Nat
  excludeIgnored : Nat
  totalIgnored : Nat
  includeEffective : Nat
  excludeEffective : Nat
  totalEffective : Nat
  hardCapExceeded : Bool
  warningLevel : RuleVolumeWarningLevel
deriving Repr, DecidableEq

/-- Translated from `toEffectiveEntries` (src/src/rule-limits.ts:39-53):
normalize each line, drop the ones that normalize to empty, and record the
original 0-based line index.  (`rule-limits.ts` imports `normalizeVaultPath`
from `./path-utils`, whose definition is character-for-character the one in
`matcher.ts`.) -/
def toEffectiveEntriesAux (idx : Nat) : List String → List EffectiveRuleEntry
  | [] => []
  | line :: rest =>
    let normalized := normalizeVaultPath line
    if normalized = "" then toEffectiveEntriesAux (idx + 1) rest
    else { value := normalized, lineIndex := idx } :: toEffectiveEntriesAux (idx + 1) rest

/-- Entry point of the translation of `toEffectiveEntries`, starting at
line index 0. -/
def toEffectiveEntries (lines : List String) : List EffectiveRuleEntry :=
  toEffectiveEntriesAux 0 lines

/-- Translated from `buildEffectiveRules` (src/src/rule-limits.ts:61-133):
per-list caps first, then the combined total cap with include priority. -/
def buildEffectiveRules (includeLines excludeLines : List String) : EffectiveRulesResult :=
  let includeEntries := toEffectiveEntries includeLines
  let excludeEntries := toEffectiveEntries excludeLines
  let keptInclude0 := includeEntries.take RULE_LIMIT_INCLUDE_MAX
  let ignoredInclude0 := (includeEntries.drop RULE_LIMIT_INCLUDE_MAX).map (·.lineIndex)
  let keptExclude0 := excludeEntries.take RULE_LIMIT_EXCLUDE_MAX
  let ignoredExclude0 := (excludeEntries.drop RULE_LIMIT_EXCLUDE_MAX).map (·.lineIndex)
  let totalAfterListCaps := keptInclude0.length + keptExclude0.length
  let capped :=
    if totalAfterListCaps > RULE_LIMIT_TOTAL_MAX then
      if keptInclude0.length > RULE_LIMIT_TOTAL_MAX then
        (keptInclude0.take RULE_LIMIT_TOTAL_MAX,
         ignoredInclude0 ++ (keptInclude0.drop RULE_LIMIT_TOTAL_MAX).map (·.lineIndex),
         ([] : List EffectiveRuleEntry),
         ignoredExclude0 ++ keptExclude0.map (·.lineIndex))
      else
        let allowedExclude := RULE_LIMIT_TOTAL_MAX - keptInclude0.length
        (keptInclude0, ignoredInclude0,
         keptExclude0.take allowedExclude,
         ignoredExclude0 ++ (keptExclude0.drop allowedExclude).map (·.lineIndex))
    else
      (keptInclude0, ignoredInclude0, keptExclude0, ignoredExclude0)
  let keptInclude := capped.1
  let ignoredIncludeLineIndexes := capped.2.1
  let keptExclude := capped.2.2.1
  let ignoredExcludeLineIndexes := capped.2.2.2
  let includeIgnored := ignoredIncludeLineIndexes.length
  let excludeIgnored := ignoredExcludeLineIndexes.length
  let includeEffective := includeEntries.length
  let excludeEffective := excludeEntries.length
  let maxPerListCount := max includeEffective excludeEffective
  { effectiveIncludeRules := keptInclude.map (·.value)
    effectiveExcludeRules := keptExclude.map (·.value)
    ignoredIncludeLineIndexes := ignoredIncludeLineIndexes
    ignoredExcludeLineIndexes := ignoredExcludeLineIndexes
    includeUsed := keptInclude.length
    excludeUsed := keptExclude.length
    totalUsed := keptInclude.length + keptExclude.length
    includeIgnored := includeIgnored
    excludeIgnored := excludeIgnored
    totalIgnored := includeIgnored + excludeIgnored
    includeEffective := includeEffective
    excludeEffective := excludeEffective
    totalEffective := includeEffective + excludeEffective
    hardCapExceeded := includeIgnored + excludeIgnored > 0
    warningLevel :=
      if maxPerListCount > RULE_WARNING_STRONG_THRESHOLD then .strong
      else if maxPerListCount > RULE_WARNING_SOFT_THRESHOLD then .soft
      else .none }

/-!
## Compiled-pattern cache (src/src/matcher.ts:26-49)

The JS `Map<string, RegExp>` is modelled as an association list in
insertion order (JS `Map` iteration order); the compiled `RegExp` value is
modelled by its compiled token list.
-/

/-- Translated from `GLOB_REGEX_CACHE_CAP` (src/src/matcher.ts:26). -/
def GLOB_REGEX_CACHE_CAP : Nat := 512

/-- The cache: keys in insertion order, as a JS `Map` iterates them. -/
abbrev GlobRegexCache := List (String × List GlobTok)

/-- Translated from `setGlobRegexCache` (src/src/matcher.ts:37-49):
re-setting a present key updates in place (JS `Map.set` keeps the original
insertion position); otherwise, at capacity, delete the first (oldest) key
before appending the new one at the end. -/
def setGlobRegexCache (cache : GlobRegexCache) (cacheKey : String) (compiled : List GlobTok) :
    GlobRegexCache :=
  if cache.any (fun e => e.1 = cacheKey) then
    cache.map (fun e => if e.1 = cacheKey then (cacheKey, compiled) else e)
  else if cache.length ≥ GLOB_REGEX_CACHE_CAP then
    match cache with
    | [] => [(cacheKey, compiled)]
    | _ :: rest => rest ++ [(cacheKey, compiled)]
  else
    cache ++ [(cacheKey, compiled)]

/-- Translated from `clearGlobRegexCache` (src/src/matcher.ts:29-31). -/
def clearGlobRegexCache (_cache : GlobRegexCache) : GlobRegexCache := []

/-- Translated from `getGlobRegexCacheSize` (src/src/matcher.ts:33-35). -/
def getGlobRegexCacheSize (cache : GlobRegexCache) : Nat := cache.length

/-- One externally observable cache operation: an insert performed by
`compileGlobToRegex` via `setGlobRegexCache`, or a `clearGlobRegexCache`. -/
inductive CacheOp where
  | set (cacheKey : String) (compiled : List GlobTok)
  | clear
deriving Repr

/-- Run a sequence of cache operations from a starting cache. -/
def runCacheOps (cache : GlobRegexCache) : List CacheOp → GlobRegexCache
  | [] => cache
  | .set k v :: rest => runCacheOps (setGlobRegexCache cache k v) rest
  | .clear :: rest => runCacheOps (clearGlobRegexCache cache) rest

/-!
## Enforcement service

Translated from the enforcement service class (the first document of
src/unnamed/part_003): `ensurePreview` (lines 101-160),
`applyReadOnlyForLeaf` (lines 69-88) and `applyAllOpenMarkdownLeaves`
(lines 43-67).  A workspace leaf is modelled by the facts the service
reads from it, plus the behaviour of its external `setViewState` API
(whether the `{replace: true}` attempt and the plain fallback attempt
throw); timestamps are integers (JS epoch milliseconds).
-/

/-- The leaf's backing file as the service reads it. -/
structure FileModel where
  path : String
  extension : String
deriving Repr, DecidableEq

/-- One workspace leaf as observed by the enforcement service:
`mode` is the result of `getLeafMode`, `stateType` the `type` field of
`getViewState()`, `lastForcedAt` the throttle timestamp stored for this
leaf (the source reads `lastForcedAt.get(leaf) ?? 0`), and the two
`throws` flags give the behaviour of the external view-state setter for
the `{replace: true}` attempt and the fallback attempt. -/
structure LeafModel where
  isMarkdownView : Bool
  file : Option FileModel
  mode : Option String
  stateType : String
  lastForcedAt : Int
  primaryThrows : Bool
  fallbackThrows : Bool
deriving Repr, DecidableEq

/-- Translated from `LEAF_FORCE_PREVIEW_THROTTLE_MS` (part_003:18). -/
def LEAF_FORCE_PREVIEW_THROTTLE_MS : Int := 120

/-- Observable outcome of one `ensurePreview` call: the list of actual
`setViewState` invocations in order (`true` = with `{replace: true}`,
`false` = the fallback without the replace option), the leaf's throttle
timestamp after the call, and whether an exception escaped the call. -/
structure EnsureOutcome where
  setterCalls : List Bool
  newLast : Int
  threw : Bool
deriving Repr, DecidableEq

/-- Translated from `ensurePreview` (part_003:101-160): guards (markdown
view, backing file, mode not already preview, throttle window, markdown
view-state type), then the timestamp is recorded **before** the awaited
setter call; a throw of the `{replace: true}` attempt is caught, logged
and answered with the fallback call, which is not itself guarded by a
`try` — if the fallback throws, the exception escapes `ensurePreview`. -/
def ensurePreview (leaf : LeafModel) (now : Int) : EnsureOutcome :=
  if !leaf.isMarkdownView then ⟨[], leaf.lastForcedAt, false⟩
  else
    match leaf.file with
    | none => ⟨[], leaf.lastForcedAt, false⟩
    | some _ =>
      if leaf.mode = some "preview" then ⟨[], leaf.lastForcedAt, false⟩
      else if now - leaf.lastForcedAt < LEAF_FORCE_PREVIEW_THROTTLE_MS then
        ⟨[], leaf.lastForcedAt, false⟩
      else if leaf.stateType ≠ "markdown" then ⟨[], leaf.lastForcedAt, false⟩
      else if !leaf.primaryThrows then ⟨[true], now, false⟩
      else if !leaf.fallbackThrows then ⟨[true, false], now, false⟩
      else ⟨[true, false], now, true⟩

/-- Translated from `applyReadOnlyForLeaf` (part_003:69-88): skip
non-markdown views, file-less leaves, non-`md` extensions and paths the
policy evaluator rejects; otherwise force preview. -/
def applyReadOnlyForLeaf (settings : ForceReadModeSettings) (leaf : LeafModel) (now : Int) :
    EnsureOutcome :=
  if !leaf.isMarkdownView then ⟨[], leaf.lastForcedAt, false⟩
  else
    match leaf.file with
    | none => ⟨[], leaf.lastForcedAt, false⟩
    | some file =>
      if file.extension ≠ "md" then ⟨[], leaf.lastForcedAt, false⟩
      else if !shouldForceReadOnly file.path settings then ⟨[], leaf.lastForcedAt, false⟩
      else ensurePreview leaf now

/-- One enforcement pass over the snapshot of open leaves (the `for` loop
of `applyAllOpenMarkdownLeaves`, part_003:55-58): each leaf is awaited in
order; an exception escaping `applyReadOnlyForLeaf` aborts the loop, so
the result is the outcomes of the processed prefix plus an aborted flag. -/
def runPass (settings : ForceReadModeSettings) (now : Int) :
    List LeafModel → List EnsureOutcome × Bool
  | [] => ([], false)
  | leaf :: rest =>
    let outcome := applyReadOnlyForLeaf settings leaf now
    if outcome.threw then ([outcome], true)
    else
      let r := runPass settings now rest
      (outcome :: r.1, r.2)

/-- Scheduler bookkeeping of the enforcement service (part_003:34-35):
the `enforcing` busy flag and the single `pendingReapply` slot. -/
structure EnforcementState where
  enforcing : Bool
  pendingReapply : Option String
deriving Repr, DecidableEq

/-- A re-entrant `applyAllOpenMarkdownLeaves(reason)` call arriving while
another call is in flight (part_003:44-51): if the plugin is enabled and a
pass is running, the reason overwrites the single `pendingReapply` slot
and the call returns at once. -/
def recordTrigger (enabled : Bool) (st : EnforcementState) (reason : String) : EnforcementState :=
  if !enabled then st
  else if st.enforcing then { st with pendingReapply := some reason }
  else st

/-- Translated from `applyAllOpenMarkdownLeaves` (part_003:43-67) as a
small-step scheduler model.  The awaited per-leaf body of a pass is
abstracted to the list of re-entrant triggers that arrive during that
pass (`bursts` holds one such list per started pass): the call checks
`enabled`, defers into `pendingReapply` while busy, otherwise sets the
busy flag, runs the pass body (during which each arriving trigger is
processed by `recordTrigger`), clears the busy flag in the `finally`, and
— if `pendingReapply` was set — consumes it and recurses with the
`pending:`-prefixed reason before its own promise resolves.  The result
collects the reasons of all passes run by this call, in order; `fuel`
bounds the recursion depth (`none` = fuel exhausted, never reached with
`fuel > bursts.length`). -/
def applyAllModel (enabled : Bool) :
    Nat → EnforcementState → String → List (List String) →
    Option (List String × EnforcementState)
  | 0, _, _, _ => none
  | fuel + 1, st, reason, bursts =>
    if !enabled then some ([], st)
    else if st.enforcing then some ([], { st with pendingReapply := some reason })
    else
      let stBusy : EnforcementState := { enforcing := true, pendingReapply := st.pendingReapply }
      let stAfterBody := (bursts.headD []).foldl (recordTrigger enabled) stBusy
      let stDone : EnforcementState := { stAfterBody with enforcing := false }
      match stDone.pendingReapply with
      | none => some ([reason], stDone)
      | some nextReason =>
        match applyAllModel enabled fuel { stDone with pendingReapply := none }
            ("pending:" ++ nextReason) bursts.tail with
        | none => none
        | some (rest, stFinal) => some (reason :: rest, stFinal)

/-!
## Spec-side definitions

Definitions that follow the specification's words rather than the source,
for the refinement-style claims that compare the two.
-/

/-- Follows the spec's words (§4.4, step 3): the policy evaluator is said
to match against the capped `effectiveIncludeRules`/`effectiveExcludeRules`
obtained from `buildEffectiveRules settings.includeRules
settings.excludeRules`.  To be compared with the source-translated
`shouldForceReadOnly`. -/
def shouldForceReadOnlySpecCapped (filePath : String) (settings : ForceReadModeSettings) : Bool :=
  if !settings.enabled then false
  else
    let normalizedFilePath := normalizeVaultPath filePath
    if !(strEndsWith (strToLower normalizedFilePath) ".md") then false
    else
      let options : MatchPathOptions :=
        { useGlobPatterns := settings.useGlobPatterns, caseSensitive := settings.caseSensitive }
      let effective := buildEffectiveRules settings.includeRules settings.excludeRules
      let hasIncludeMatch :=
        effective.effectiveIncludeRules.any (fun rule => matchPath normalizedFilePath rule options)
      if !hasIncludeMatch then false
      else
        let hasExcludeMatch :=
          effective.effectiveExcludeRules.any (fun rule => matchPath normalizedFilePath rule options)
        !hasExcludeMatch

/-- The language of a compiled token list: which whole character strings
the regex body built by `compileGlobToRegex` describes.  `lit c` matches
exactly `c`; `[^/]` matches one non-slash character; `[^/]*` any run of
non-slash characters; `.*` any run of characters; `/(?:.*/)?` a slash
optionally followed by any run of characters that ends with a slash. -/
inductive GlobLang : List GlobTok → List Char → Prop where
  | nil : GlobLang [] []
  | lit {c ts ds} : GlobLang ts ds → GlobLang (.lit c :: ts) (c :: ds)
  | one {d ts ds} : d ≠ '/' → GlobLang ts ds → GlobLang (.oneNonSlash :: ts) (d :: ds)
  | segSkip {ts ds} : GlobLang ts ds → GlobLang (.anySeg :: ts) ds
  | segCons {d ts ds} : d ≠ '/' → GlobLang (.anySeg :: ts) ds → GlobLang (.anySeg :: ts) (d :: ds)
  | runSkip {ts ds} : GlobLang ts ds → GlobLang (.anyRun :: ts) ds
  | runCons {d ts ds} : GlobLang (.anyRun :: ts) ds → GlobLang (.anyRun :: ts) (d :: ds)
  | sgsSkip {ts ds} : GlobLang ts ds → GlobLang (.slashGlobSlash :: ts) ('/' :: ds)
  | sgsSeg {ts u ds} : GlobLang ts ds →
      GlobLang (.slashGlobSlash :: ts) ('/' :: (u ++ '/' :: ds))

/-- The pass chain the specification describes for the scheduler (§4.5):
one pass per call; a burst of triggers during a pass collapses to its last
reason (last-writer-wins); a non-empty slot starts one follow-up pass with
the `pending:`-prefixed reason; the chain ends after a pass during which
no trigger arrived. -/
def schedChain (reason : String) : List (List String) → List String
  | [] => [reason]
  | burst :: rest =>
    match burst.getLast? with
    | none => [reason]
    | some nextReason => reason :: schedChain ("pending:" ++ nextReason) rest

/-!
## Helper lemmas
-/

lemma strStartsWith_empty_of_ne (s : String) (h : s ≠ "") : strStartsWith "" s = false := by
  have hd : s.data ≠ [] := by
    intro hnil
    exact h (by cases s; simp_all)
  unfold strStartsWith
  cases hs : s.data with
  | nil => exact absurd hs hd
  | cons c cs => rfl

lemma append_slash_ne_empty (s : String) : s ++ "/" ≠ "" := by
  intro h
  have := congrArg String.data h
  simp [String.data_append] at this

lemma matchPath_empty_pattern (p : String) (o : MatchPathOptions) : matchPath p "" o = false := by
  have h : normalizeForCase (normalizeVaultPath "") o.caseSensitive = "" := by
    rcases o with ⟨g, cs⟩
    cases cs <;> rfl
  simp [matchPath, h]

lemma toEffectiveEntriesAux_length_le (lines : List String) :
    ∀ idx, (toEffectiveEntriesAux idx lines).length ≤ lines.length := by
  induction lines with
  | nil => intro idx; simp [toEffectiveEntriesAux]
  | cons r rest ih =>
    intro idx
    simp only [toEffectiveEntriesAux]
    split
    · exact le_trans (ih (idx + 1)) (by simp)
    · simpa using ih (idx + 1)

lemma any_values_toEffectiveEntriesAux (p : String) (o : MatchPathOptions)
    (lines : List String) (h : ∀ r ∈ lines, normalizeVaultPath r = r) :
    ∀ idx, (((toEffectiveEntriesAux idx lines).map (·.value)).any
      (fun rule => matchPath p rule o)) = lines.any (fun rule => matchPath p rule o) := by
  induction lines with
  | nil => intro idx; rfl
  | cons r rest ih =>
    intro idx
    have hr : normalizeVaultPath r = r := h r (List.mem_cons_self r rest)
    have hrest : ∀ x ∈ rest, normalizeVaultPath x = x :=
      fun x hx => h x (List.mem_cons_of_mem r hx)
    simp only [toEffectiveEntriesAux, hr]
    by_cases hre : r = ""
    · rw [if_pos hre, ih hrest idx.succ]
      subst hre
      simp [matchPath_empty_pattern]
    · rw [if_neg hre]
      simp only [List.map_cons, List.any_cons, ih hrest idx.succ]

lemma buildEffectiveRules_effective_of_within_caps (incl excl : List String)
    (hI : (toEffectiveEntries incl).length ≤ RULE_LIMIT_INCLUDE_MAX)
    (hE : (toEffectiveEntries excl).length ≤ RULE_LIMIT_EXCLUDE_MAX)
    (hT : (toEffectiveEntries incl).length + (toEffectiveEntries excl).length ≤
      RULE_LIMIT_TOTAL_MAX) :
    (buildEffectiveRules incl excl).effectiveIncludeRules =
      (toEffectiveEntries incl).map (·.value) ∧
    (buildEffectiveRules incl excl).effectiveExcludeRules =
      (toEffectiveEntries excl).map (·.value) := by
  have htI := List.take_of_length_le hI
  have htE := List.take_of_length_le hE
  simp only [buildEffectiveRules, htI, htE]
  rw [if_neg (Nat.not_lt.mpr hT)]
  exact ⟨rfl, rfl⟩

lemma ensurePreview_no_throw (leaf : LeafModel) (now : Int)
    (h : leaf.fallbackThrows = false) : (ensurePreview leaf now).threw = false := by
  obtain ⟨md, file, mode, st, last, pt, ft⟩ := leaf
  simp only at h
  subst h
  cases file <;> cases md <;> cases pt <;>
    simp only [ensurePreview] <;> split_ifs <;> first | rfl | simp_all

lemma ensurePreview_skip_or_stamp (leaf : LeafModel) (now : Int) :
    ensurePreview leaf now = ⟨[], leaf.lastForcedAt, false⟩ ∨
    (ensurePreview leaf now).newLast = now := by
  obtain ⟨md, file, mode, st, last, pt, ft⟩ := leaf
  cases file <;> cases md <;> cases pt <;> cases ft <;>
    simp only [ensurePreview] <;> split_ifs <;> simp

lemma ensurePreview_records_before_setter (leaf : LeafModel) (now : Int)
    (h : (ensurePreview leaf now).setterCalls ≠ []) :
    (ensurePreview leaf now).newLast = now := by
  rcases ensurePreview_skip_or_stamp leaf now with hskip | hstamp
  · rw [hskip] at h
    simp at h
  · exact hstamp

lemma applyReadOnlyForLeaf_no_throw (s : ForceReadModeSettings) (leaf : LeafModel) (now : Int)
    (h : leaf.fallbackThrows = false) : (applyReadOnlyForLeaf s leaf now).threw = false := by
  have he := ensurePreview_no_throw leaf now h
  obtain ⟨md, file, mode, st, last, pt, ft⟩ := leaf
  cases file <;> cases md <;>
    simp only [applyReadOnlyForLeaf] <;> split_ifs <;> first | rfl | exact he | simp_all

lemma runPass_processes_all (s : ForceReadModeSettings) (now : Int) (leaves : List LeafModel)
    (h : ∀ l ∈ leaves, l.fallbackThrows = false) :
    (runPass s now leaves).2 = false ∧ (runPass s now leaves).1.length = leaves.length := by
  induction leaves with
  | nil => exact ⟨rfl, rfl⟩
  | cons leaf rest ih =>
    have hl : leaf.fallbackThrows = false := h leaf (List.mem_cons_self leaf rest)
    have hrest := ih (fun l hlm => h l (List.mem_cons_of_mem leaf hlm))
    simp only [runPass]
    rw [if_neg (by rw [applyReadOnlyForLeaf_no_throw s leaf now hl]; simp)]
    simpa using hrest

lemma ensurePreview_fallback_after_primary_throw (f : FileModel) (mode : Option String)
    (last now : Int) (hmode : mode ≠ some "preview")
    (hthr : now - last ≥ LEAF_FORCE_PREVIEW_THROTTLE_MS) :
    ensurePreview ⟨true, some f, mode, "markdown", last, true, false⟩ now =
      ⟨[true, false], now, false⟩ := by
  simp only [ensurePreview]
  split_ifs <;> first | rfl | omega | simp_all

lemma ensurePreview_throttle_chain (f : FileModel) (mode : Option String) (ft : Bool)
    (last t1 t2 t3 : Int) (hmode : mode ≠ some "preview")
    (h1 : t1 - last ≥ LEAF_FORCE_PREVIEW_THROTTLE_MS)
    (h2 : t2 - t1 < LEAF_FORCE_PREVIEW_THROTTLE_MS)
    (h3 : t3 - t1 ≥ LEAF_FORCE_PREVIEW_THROTTLE_MS) :
    ensurePreview ⟨true, some f, mode, "markdown", last, false, ft⟩ t1 = ⟨[true], t1, false⟩ ∧
    ensurePreview ⟨true, some f, mode, "markdown", t1, false, ft⟩ t2 = ⟨[], t1, false⟩ ∧
    ensurePreview ⟨true, some f, mode, "markdown", t1, false, ft⟩ t3 = ⟨[true], t3, false⟩ := by
  refine ⟨?_, ?_, ?_⟩ <;>
    · simp only [ensurePreview]
      split_ifs <;> first | rfl | omega | simp_all

lemma getLast?_cons_or (x : String) (xs : List String) :
    (x :: xs).getLast? = xs.getLast?.or (some x) := by
  induction xs with
  | nil => simp
  | cons y ys ih =>
    rw [List.getLast?_cons_cons]
    cases h : (y :: ys).getLast? with
    | none => simp [List.getLast?_eq_none_iff] at h
    | some z => simp [Option.or]

lemma foldl_recordTrigger (l : List String) :
    ∀ p : Option String,
      l.foldl (recordTrigger true) ⟨true, p⟩ = ⟨true, l.getLast?.or p⟩ := by
  induction l with
  | nil => intro p; simp
  | cons x xs ih =>
    intro p
    simp only [List.foldl_cons]
    have hstep : recordTrigger true ⟨true, p⟩ x = ⟨true, some x⟩ := rfl
    rw [hstep, ih (some x), getLast?_cons_or]
    rw [Option.or_assoc]
    simp

lemma applyAllModel_busy (fuel : Nat) (st : EnforcementState) (reason : String)
    (bursts : List (List String)) (h : st.enforcing = true) :
    applyAllModel true (fuel + 1) st reason bursts =
      some ([], { st with pendingReapply := some reason }) := by
  simp [applyAllModel, h]

lemma applyAllModel_idle_chain (bursts : List (List String)) :
    ∀ reason : String,
      applyAllModel true (bursts.length + 1) ⟨false, none⟩ reason bursts =
        some (schedChain reason bursts, ⟨false, none⟩) := by
  induction bursts with
  | nil =>
    intro reason
    simp [applyAllModel, schedChain, recordTrigger]
  | cons b rest ih =>
    intro reason
    rw [List.length_cons, applyAllModel]
    simp only [Bool.not_true, List.headD_cons, List.tail_cons]
    rw [foldl_recordTrigger b none]
    cases hb : b.getLast? with
    | none =>
      simp [schedChain, hb]
    | some r =>
      simp only [hb, Option.or_none]
      rw [ih ("pending:" ++ r)]
      simp [schedChain, hb]

lemma setGlobRegexCache_length_le (cache : GlobRegexCache) (k : String) (v : List GlobTok)
    (h : cache.length ≤ GLOB_REGEX_CACHE_CAP) :
    (setGlobRegexCache cache k v).length ≤ GLOB_REGEX_CACHE_CAP := by
  unfold setGlobRegexCache
  split
  · simpa using h
  · split
    · cases cache with
      | nil => simp [GLOB_REGEX_CACHE_CAP]
      | cons e rest => simpa using h
    · rename_i hfull
      have : cache.length < GLOB_REGEX_CACHE_CAP := Nat.lt_of_not_le (fun hle => hfull hle)
      simpa using this

lemma runCacheOps_length_le (ops : List CacheOp) :
    ∀ cache : GlobRegexCache, cache.length ≤ GLOB_REGEX_CACHE_CAP →
      (runCacheOps cache ops).length ≤ GLOB_REGEX_CACHE_CAP := by
  induction ops with
  | nil => intro cache h; simpa [runCacheOps] using h
  | cons op rest ih =>
    intro cache h
    cases op with
    | set k v => exact ih _ (setGlobRegexCache_length_le cache k v h)
    | clear => exact ih _ (by simp [clearGlobRegexCache, GLOB_REGEX_CACHE_CAP])

lemma setGlobRegexCache_evicts_oldest (cache : GlobRegexCache) (k : String) (v : List GlobTok)
    (hlen : cache.length = GLOB_REGEX_CACHE_CAP)
    (habs : cache.any (fun e => e.1 = k) = false) :
    setGlobRegexCache cache k v = cache.tail ++ [(k, v)] ∧
    (setGlobRegexCache cache k v).length = GLOB_REGEX_CACHE_CAP ∧
    (setGlobRegexCache cache k v).map (fun e => e.1) = (cache.map (fun e => e.1)).tail ++ [k] := by
  have hge : cache.length ≥ GLOB_REGEX_CACHE_CAP := le_of_eq hlen.symm
  cases cache with
  | nil => simp [GLOB_REGEX_CACHE_CAP] at hlen
  | cons e rest =>
    unfold setGlobRegexCache
    rw [habs]
    simp only [Bool.false_eq_true, if_false, if_pos hge]
    refine ⟨rfl, ?_, ?_⟩
    · simp at hlen ⊢
      omega
    · simp

lemma setGlobRegexCache_reset_keeps_keys (cache : GlobRegexCache) (k : String) (v : List GlobTok)
    (hmem : cache.any (fun e => e.1 = k) = true) :
    (setGlobRegexCache cache k v).map (fun e => e.1) = cache.map (fun e => e.1) ∧
    (setGlobRegexCache cache k v).length = cache.length := by
  unfold setGlobRegexCache
  rw [hmem]
  simp only [if_true]
  constructor
  · rw [List.map_map]
    apply List.map_congr_left
    intro e _
    by_cases he : e.1 = k
    · simp [he]
    · simp [he]
  · simp

lemma nullToks_iff (ts : List GlobTok) : nullToks ts = true ↔ GlobLang ts [] := by
  induction ts with
  | nil => simp [nullToks]; exact GlobLang.nil
  | cons t rest ih =>
    cases t with
    | lit c =>
      simp only [nullToks]
      constructor
      · intro h; exact absurd h (by simp)
      · intro h; cases h
    | anySeg =>
      simp only [nullToks]
      rw [ih]
      constructor
      · exact GlobLang.segSkip
      · intro h; cases h with
        | segSkip h => exact h
    | anyRun =>
      simp only [nullToks]
      rw [ih]
      constructor
      · exact GlobLang.runSkip
      · intro h; cases h with
        | runSkip h => exact h
    | oneNonSlash =>
      simp only [nullToks]
      constructor
      · intro h; exact absurd h (by simp)
      · intro h; cases h
    | slashGlobSlash =>
      simp only [nullToks]
      constructor
      · intro h; exact absurd h (by simp)
      · intro h; cases h

lemma globLang_anyRun_iff (ts : List GlobTok) (ds : List Char) :
    GlobLang (.anyRun :: ts) ds ↔ ∃ u v, ds = u ++ v ∧ GlobLang ts v := by
  constructor
  · intro h
    induction ds with
    | nil =>
      cases h with
      | runSkip h => exact ⟨[], [], rfl, h⟩
    | cons d ds ih =>
      cases h with
      | runSkip h => exact ⟨[], d :: ds, rfl, h⟩
      | runCons h =>
        obtain ⟨u, v, huv, hv⟩ := ih h
        exact ⟨d :: u, v, by rw [huv]; rfl, hv⟩
  · rintro ⟨u, v, rfl, hv⟩
    induction u with
    | nil => exact GlobLang.runSkip hv
    | cons c u ih => exact GlobLang.runCons ih

lemma globLang_skipSeg_iff (ts : List GlobTok) (ds : List Char) :
    GlobLang (.anyRun :: .lit '/' :: ts) ds ↔
      ∃ u rest, ds = u ++ '/' :: rest ∧ GlobLang ts rest := by
  rw [globLang_anyRun_iff]
  constructor
  · rintro ⟨u, v, rfl, hv⟩
    cases hv with
    | lit h => exact ⟨u, _, rfl, h⟩
  · rintro ⟨u, rest, rfl, h⟩
    exact ⟨u, '/' :: rest, rfl, GlobLang.lit h⟩

lemma deltaTok_iff (ts : List GlobTok) (d : Char) (ds : List Char) :
    GlobLang ts (d :: ds) ↔ ∃ ts2 ∈ deltaTok ts d, GlobLang ts2 ds := by
  induction ts with
  | nil =>
    simp only [deltaTok, List.not_mem_nil]
    constructor
    · intro h; cases h
    · rintro ⟨ts2, h, -⟩; exact absurd h (by simp)
  | cons t rest ih =>
    cases t with
    | lit c =>
      simp only [deltaTok]
      constructor
      · intro h
        cases h with
        | lit h => exact ⟨rest, by simp, h⟩
      · rintro ⟨ts2, hmem, h2⟩
        by_cases hc : c = d
        · subst hc
          simp at hmem
          subst hmem
          exact GlobLang.lit h2
        · simp [hc] at hmem
    | oneNonSlash =>
      simp only [deltaTok]
      constructor
      · intro h
        cases h with
        | one hd h => exact ⟨rest, by simp [hd], h⟩
      · rintro ⟨ts2, hmem, h2⟩
        by_cases hd : d = '/'
        · simp [hd] at hmem
        · simp [hd] at hmem
          subst hmem
          exact GlobLang.one hd h2
    | anySeg =>
      simp only [deltaTok]
      constructor
      · intro h
        cases h with
        | segSkip h =>
          obtain ⟨ts2, hmem, h2⟩ := (ih).mp h
          exact ⟨ts2, by simp [List.mem_append, hmem], h2⟩
        | segCons hd h =>
          refine ⟨GlobTok.anySeg :: rest, ?_, h⟩
          simp [hd]
      · rintro ⟨ts2, hmem, h2⟩
        rw [List.mem_append] at hmem
        rcases hmem with hmem | hmem
        · by_cases hd : d = '/'
          · simp [hd] at hmem
          · simp [hd] at hmem
            subst hmem
            exact GlobLang.segCons hd h2
        · exact GlobLang.segSkip ((ih).mpr ⟨ts2, hmem, h2⟩)
    | anyRun =>
      simp only [deltaTok]
      constructor
      · intro h
        cases h with
        | runSkip h =>
          obtain ⟨ts2, hmem, h2⟩ := (ih).mp h
          exact ⟨ts2, by simp [hmem], h2⟩
        | runCons h => exact ⟨GlobTok.anyRun :: rest, by simp, h⟩
      · rintro ⟨ts2, hmem, h2⟩
        simp only [List.mem_cons] at hmem
        rcases hmem with rfl | hmem
        · exact GlobLang.runCons h2
        · exact GlobLang.runSkip ((ih).mpr ⟨ts2, hmem, h2⟩)
    | slashGlobSlash =>
      simp only [deltaTok]
      constructor
      · intro h
        cases h with
        | sgsSkip h => exact ⟨rest, by simp, h⟩
        | sgsSeg h =>
          refine ⟨GlobTok.anyRun :: .lit '/' :: rest, by simp, ?_⟩
          exact (globLang_skipSeg_iff rest _).mpr ⟨_, _, rfl, h⟩
      · rintro ⟨ts2, hmem, h2⟩
        by_cases hd : d = '/'
        · subst hd
          simp at hmem
          rcases hmem with rfl | hmem2
          · exact GlobLang.sgsSkip h2
          · subst hmem2
            obtain ⟨u, rest2, rfl, h3⟩ := (globLang_skipSeg_iff rest ds).mp h2
            exact GlobLang.sgsSeg h3
        · simp [hd] at hmem

lemma nfaRun_iff (ds : List Char) :
    ∀ states : List (List GlobTok),
      nfaRun states ds = true ↔ ∃ ts ∈ states, GlobLang ts ds := by
  induction ds with
  | nil =>
    intro states
    simp only [nfaRun, List.any_eq_true]
    constructor
    · rintro ⟨ts, hts, hn⟩; exact ⟨ts, hts, (nullToks_iff ts).mp hn⟩
    · rintro ⟨ts, hts, hl⟩; exact ⟨ts, hts, (nullToks_iff ts).mpr hl⟩
  | cons d ds ih =>
    intro states
    simp only [nfaRun]
    rw [ih]
    constructor
    · rintro ⟨ts2, hmem, h2⟩
      rw [List.mem_flatMap] at hmem
      obtain ⟨ts, hts, hdel⟩ := hmem
      exact ⟨ts, hts, (deltaTok_iff ts d ds).mpr ⟨ts2, hdel, h2⟩⟩
    · rintro ⟨ts, hts, hl⟩
      obtain ⟨ts2, hdel, h2⟩ := (deltaTok_iff ts d ds).mp hl
      exact ⟨ts2, List.mem_flatMap.mpr ⟨ts, hts, hdel⟩, h2⟩

lemma toksMatch_iff_globLang (ts : List GlobTok) (ds : List Char) :
    toksMatch ts ds = true ↔ GlobLang ts ds := by
  rw [toksMatch, nfaRun_iff]
  simp

/-!
## Claim theorems
-/

/-- C8 (confirmed): glob matching is anchored.  `matchPath` in glob mode
returns `true` exactly when the entire normalized, case-folded path — from
its first character to its last — belongs to the language `GlobLang` of
the compiled pattern (and both normalized strings are non-empty), so a
path with extra leading or trailing characters relative to what the
pattern describes never matches; concretely, `a/b` matches neither `a/bc`
nor `xa/b`. -/
theorem c8_glob_match_is_anchored :
    (∀ (filePath pat : String) (cs : Bool),
      matchPath filePath pat ⟨true, cs⟩ = true ↔
        (normalizeForCase (normalizeVaultPath filePath) cs ≠ "" ∧
         normalizeForCase (normalizeVaultPath pat) cs ≠ "" ∧
         GlobLang (compileGlobToks (normalizeForCase (normalizeVaultPath pat) cs).data)
           (normalizeForCase (normalizeVaultPath filePath) cs).data)) ∧
    matchPath "a/bc" "a/b" ⟨true, true⟩ = false ∧
    matchPath "xa/b" "a/b" ⟨true, true⟩ = false := by
  refine ⟨?_, by decide, by decide⟩
  intro filePath pat cs
  unfold matchPath
  by_cases h1 : normalizeForCase (normalizeVaultPath filePath) cs = ""
  · simp [h1]
  · by_cases h2 : normalizeForCase (normalizeVaultPath pat) cs = ""
    · simp [h1, h2]
    · simp [h1, h2, globRegexTest, toksMatch_iff_globLang]

/-- C7 (confirmed): starting from the empty cache, no sequence of
insert/clear operations ever leaves more than 512 entries; a full cache
receiving a not-yet-present key evicts exactly the single oldest-inserted
(first) key, appending the new key at the end; re-setting a present key
changes neither the cache size nor the key order (so future evictions are
unaffected) — FIFO, not LRU. -/
theorem c7_cache_fifo_bounded :
    (∀ ops : List CacheOp, (runCacheOps [] ops).length ≤ GLOB_REGEX_CACHE_CAP) ∧
    (∀ (cache : GlobRegexCache) (k : String) (v : List GlobTok),
      cache.length = GLOB_REGEX_CACHE_CAP → cache.any (fun e => e.1 = k) = false →
      setGlobRegexCache cache k v = cache.tail ++ [(k, v)] ∧
      (setGlobRegexCache cache k v).length = GLOB_REGEX_CACHE_CAP ∧
      (setGlobRegexCache cache k v).map (fun e => e.1) =
        (cache.map (fun e => e.1)).tail ++ [k]) ∧
    (∀ (cache : GlobRegexCache) (k : String) (v : List GlobTok),
      cache.any (fun e => e.1 = k) = true →
      (setGlobRegexCache cache k v).map (fun e => e.1) = cache.map (fun e => e.1) ∧
      (setGlobRegexCache cache k v).length = cache.length) :=
  ⟨fun ops => runCacheOps_length_le ops [] (by simp [GLOB_REGEX_CACHE_CAP]),
   setGlobRegexCache_evicts_oldest, setGlobRegexCache_reset_keeps_keys⟩

/-- C7, witness: eviction applied to a concrete full 512-entry cache with
a fresh key, and a re-set applied to a cache containing the key. -/
theorem c7_cache_fifo_bounded_witness :
    setGlobRegexCache ((List.range 512).map (fun i => (toString i, ([] : List GlobTok))))
        "new" [] =
      ((List.range 512).map (fun i => (toString i, ([] : List GlobTok)))).tail ++
        [("new", [])] ∧
    (setGlobRegexCache [("0", [GlobTok.anySeg])] "0" []).map (fun e => e.1) =
      [("0", [GlobTok.anySeg])].map (fun e => e.1) :=
  ⟨(c7_cache_fifo_bounded.2.1 ((List.range 512).map (fun i => (toString i, [])))
      "new" [] (by decide) (by decide)).1,
   (c7_cache_fifo_bounded.2.2 [("0", [GlobTok.anySeg])] "0" [] (by decide)).1⟩

/-- C1 (corrected): `shouldForceReadOnly` matches against the raw
`settings.includeRules`/`excludeRules`, not the capped effective rules; it
agrees with the spec's capped evaluation exactly when no rule is dropped —
for settings whose rules are already normalized and whose list lengths are
within the include, exclude and total caps, the source policy evaluator
and the capped evaluator coincide. -/
theorem c1_effective_rules_agreement_amended (p : String) (s : ForceReadModeSettings)
    (hIncFixed : ∀ r ∈ s.includeRules, normalizeVaultPath r = r)
    (hExcFixed : ∀ r ∈ s.excludeRules, normalizeVaultPath r = r)
    (hI : s.includeRules.length ≤ RULE_LIMIT_INCLUDE_MAX)
    (hE : s.excludeRules.length ≤ RULE_LIMIT_EXCLUDE_MAX)
    (hT : s.includeRules.length + s.excludeRules.length ≤ RULE_LIMIT_TOTAL_MAX) :
    shouldForceReadOnly p s = shouldForceReadOnlySpecCapped p s := by
  obtain ⟨heI, heE⟩ := buildEffectiveRules_effective_of_within_caps s.includeRules s.excludeRules
    (le_trans (toEffectiveEntriesAux_length_le _ 0) hI)
    (le_trans (toEffectiveEntriesAux_length_le _ 0) hE)
    (le_trans (Nat.add_le_add (toEffectiveEntriesAux_length_le _ 0)
      (toEffectiveEntriesAux_length_le _ 0)) hT)
  simp only [shouldForceReadOnly, shouldForceReadOnlySpecCapped, heI, heE, toEffectiveEntries,
    any_values_toEffectiveEntriesAux _ _ _ hIncFixed 0,
    any_values_toEffectiveEntriesAux _ _ _ hExcFixed 0]

/-- C1, witness: agreement at a concrete in-cap, normalized settings. -/
theorem c1_effective_rules_agreement_witness :
    shouldForceReadOnly "docs/a.md" ⟨true, false, true, false, false, ["docs"], ["secret"]⟩ =
      shouldForceReadOnlySpecCapped "docs/a.md"
        ⟨true, false, true, false, false, ["docs"], ["secret"]⟩ :=
  c1_effective_rules_agreement_amended "docs/a.md"
    ⟨true, false, true, false, false, ["docs"], ["secret"]⟩
    (by decide) (by decide) (by decide) (by decide) (by decide)

/-- C1, counterexample to the claim as stated: with 201 include rules of
which only the 201st (`docs`) matches, the include cap (200) drops the
matching rule from the effective include list, so the capped evaluation
of the spec yields `false` — yet `shouldForceReadOnly`, which never calls
`buildEffectiveRules`, matches the raw list and yields `true`: a rule
dropped by the caps does influence the read-only decision. -/
theorem c1_effective_rules_counterexample :
    shouldForceReadOnly "docs/a.md"
      ⟨true, false, true, false, false, List.replicate 200 "zzz" ++ ["docs"], []⟩ = true ∧
    shouldForceReadOnlySpecCapped "docs/a.md"
      ⟨true, false, true, false, false, List.replicate 200 "zzz" ++ ["docs"], []⟩ = false := by
  exact ⟨by decide, by decide⟩

/-- C3 (corrected): the kept include list never exceeds the total cap
(its per-list cap 200 is below the total cap 400, making the source's
include-truncation branch unreachable), so `effectiveExcludeRules` is not
forced empty by a large include list; whenever kept include plus kept
exclude exceed the total cap, include is kept whole and only the tail of
the kept exclude list beyond `TOTAL_MAX - keptInclude.length` is moved to
the ignored indexes. -/
theorem c3_total_cap_trims_exclude_tail (incl excl : List String) :
    ((toEffectiveEntries incl).take RULE_LIMIT_INCLUDE_MAX).length ≤ RULE_LIMIT_TOTAL_MAX ∧
    (((toEffectiveEntries incl).take RULE_LIMIT_INCLUDE_MAX).length +
      ((toEffectiveEntries excl).take RULE_LIMIT_EXCLUDE_MAX).length > RULE_LIMIT_TOTAL_MAX →
      (buildEffectiveRules incl excl).effectiveIncludeRules =
        ((toEffectiveEntries incl).take RULE_LIMIT_INCLUDE_MAX).map (·.value) ∧
      (buildEffectiveRules incl excl).effectiveExcludeRules =
        (((toEffectiveEntries excl).take RULE_LIMIT_EXCLUDE_MAX).take
          (RULE_LIMIT_TOTAL_MAX -
            ((toEffectiveEntries incl).take RULE_LIMIT_INCLUDE_MAX).length)).map (·.value) ∧
      (buildEffectiveRules incl excl).ignoredIncludeLineIndexes =
        ((toEffectiveEntries incl).drop RULE_LIMIT_INCLUDE_MAX).map (·.lineIndex) ∧
      (buildEffectiveRules incl excl).ignoredExcludeLineIndexes =
        ((toEffectiveEntries excl).drop RULE_LIMIT_EXCLUDE_MAX).map (·.lineIndex) ++
        (((toEffectiveEntries excl).take RULE_LIMIT_EXCLUDE_MAX).drop
          (RULE_LIMIT_TOTAL_MAX -
            ((toEffectiveEntries incl).take RULE_LIMIT_INCLUDE_MAX).length)).map (·.lineIndex)) := by
  have hlen : ((toEffectiveEntries incl).take RULE_LIMIT_INCLUDE_MAX).length ≤
      RULE_LIMIT_TOTAL_MAX := by
    have h := List.length_take RULE_LIMIT_INCLUDE_MAX (toEffectiveEntries incl)
    simp only [RULE_LIMIT_INCLUDE_MAX, RULE_LIMIT_TOTAL_MAX] at h ⊢
    omega
  refine ⟨hlen, fun hgt => ?_⟩
  simp only [buildEffectiveRules]
  rw [if_pos hgt, if_neg (Nat.not_lt.mpr hlen)]
  exact ⟨rfl, rfl, rfl, rfl⟩

/-- C3, witness: with 200 kept include and 300 kept exclude entries the
total cap applies and include is kept whole. -/
theorem c3_total_cap_trims_exclude_tail_witness :
    (buildEffectiveRules (List.replicate 200 "a") (List.replicate 300 "b")).effectiveIncludeRules =
      ((toEffectiveEntries (List.replicate 200 "a")).take RULE_LIMIT_INCLUDE_MAX).map (·.value) :=
  ((c3_total_cap_trims_exclude_tail (List.replicate 200 "a") (List.replicate 300 "b")).2
    (by decide)).1

/-- C3, counterexample to the claim as stated: 401 normalized non-empty
include rules exceed the total cap on their own, yet with one exclude rule
`effectiveExcludeRules` is `[x.md]`, not empty — the include list is
first capped to 200 by the per-list cap, leaving room for excludes. -/
theorem c3_include_priority_counterexample :
    (toEffectiveEntries (List.replicate 401 "a")).length > RULE_LIMIT_TOTAL_MAX ∧
    (buildEffectiveRules (List.replicate 401 "a") ["x.md"]).effectiveExcludeRules = ["x.md"] ∧
    (buildEffectiveRules (List.replicate 401 "a") ["x.md"]).effectiveExcludeRules ≠ [] := by
  refine ⟨by decide, by decide, by decide⟩

/-- C2 (corrected): a throw of the primary `{replace: true}` setter
attempt is caught and answered with the fallback call, and as long as the
fallback does not throw, no exception escapes `ensurePreview` and an
enforcement pass processes every document; but a throw of the fallback
call itself is not caught — it escapes `ensurePreview` and aborts the
pass for the remaining documents (see the counterexample). -/
theorem c2_setter_failure_containment :
    (∀ (leaf : LeafModel) (now : Int), leaf.fallbackThrows = false →
      (ensurePreview leaf now).threw = false) ∧
    (∀ (s : ForceReadModeSettings) (now : Int) (leaves : List LeafModel),
      (∀ l ∈ leaves, l.fallbackThrows = false) →
      (runPass s now leaves).2 = false ∧ (runPass s now leaves).1.length = leaves.length) ∧
    (∀ (f : FileModel) (mode : Option String) (last now : Int),
      mode ≠ some "preview" → now - last ≥ LEAF_FORCE_PREVIEW_THROTTLE_MS →
      ensurePreview ⟨true, some f, mode, "markdown", last, true, false⟩ now =
        ⟨[true, false], now, false⟩) :=
  ⟨ensurePreview_no_throw, runPass_processes_all, ensurePreview_fallback_after_primary_throw⟩

/-- C2, witness: a primary-attempt throw at a concrete leaf is contained
(both setter variants called, nothing escapes), and a concrete two-leaf
pass with non-throwing fallbacks processes both leaves. -/
theorem c2_setter_failure_containment_witness :
    ensurePreview ⟨true, some ⟨"docs/a.md", "md"⟩, some "source", "markdown", 0, true, false⟩
        1000 = ⟨[true, false], 1000, false⟩ ∧
    (runPass ⟨true, false, true, false, false, ["docs"], []⟩ 1000
        [⟨true, some ⟨"docs/a.md", "md"⟩, some "source", "markdown", 0, true, false⟩,
         ⟨true, some ⟨"docs/b.md", "md"⟩, some "source", "markdown", 0, false, false⟩]).1.length
      = 2 :=
  ⟨c2_setter_failure_containment.2.2 ⟨"docs/a.md", "md"⟩ (some "source") 0 1000
      (by decide) (by decide),
   (c2_setter_failure_containment.2.1 ⟨true, false, true, false, false, ["docs"], []⟩ 1000
      [⟨true, some ⟨"docs/a.md", "md"⟩, some "source", "markdown", 0, true, false⟩,
       ⟨true, some ⟨"docs/b.md", "md"⟩, some "source", "markdown", 0, false, false⟩]
      (by decide)).2⟩

/-- C2, counterexample to the claim as stated: when both setter variants
throw, the exception escapes `ensurePreview` (`threw = true`), and in a
two-leaf pass the loop aborts after the first leaf — the second document
is never processed, contradicting "never propagated" and "the enforcement
pass continues with the remaining documents". -/
theorem c2_setter_failure_containment_counterexample :
    (ensurePreview ⟨true, some ⟨"docs/a.md", "md"⟩, some "source", "markdown", 0, true, true⟩
        1000).threw = true ∧
    runPass ⟨true, false, true, false, false, ["docs"], []⟩ 1000
        [⟨true, some ⟨"docs/a.md", "md"⟩, some "source", "markdown", 0, true, true⟩,
         ⟨true, some ⟨"docs/b.md", "md"⟩, some "source", "markdown", 0, false, false⟩] =
      ([⟨[true, false], 1000, true⟩], true) := by
  exact ⟨by decide, by decide⟩

/-- C5 (confirmed): the scheduler is single-flight.  A call arriving while
`enforcing` is set starts no pass: it only overwrites the single
`pendingReapply` slot with its reason and returns.  From idle, a call runs
exactly the pass chain `schedChain`: each pass collapses the triggers that
arrived during it to the last one (last-writer-wins, never a queue), a
non-empty slot immediately starts one follow-up pass with the
`pending:`-prefixed reason, and the chain — all of whose passes run within
the one public call, which is what the model's single result captures —
ends when a pass completes with the slot empty, returning to idle state
`⟨false, none⟩`. -/
theorem c5_scheduler_single_flight :
    (∀ (reason : String) (bursts : List (List String)),
      applyAllModel true (bursts.length + 1) ⟨false, none⟩ reason bursts =
        some (schedChain reason bursts, ⟨false, none⟩)) ∧
    (∀ (fuel : Nat) (st : EnforcementState) (reason : String) (bursts : List (List String)),
      st.enforcing = true →
      applyAllModel true (fuel + 1) st reason bursts =
        some ([], { st with pendingReapply := some reason })) :=
  ⟨fun reason bursts => applyAllModel_idle_chain bursts reason,
   fun fuel st reason bursts h => applyAllModel_busy fuel st reason bursts h⟩

/-- C5, witness: a trigger arriving while busy overwrites the pending slot
(last-writer-wins over the previously pending reason) and starts nothing. -/
theorem c5_scheduler_single_flight_witness :
    applyAllModel true 1 ⟨true, some "old"⟩ "new" [] = some ([], ⟨true, some "new"⟩) :=
  c5_scheduler_single_flight.2 0 ⟨true, some "old"⟩ "new" [] rfl

/-- C6 (confirmed): `ensurePreview` writes the throttle timestamp before
the awaited setter call — whenever any setter call happens, the stored
last-forced time is already `now` (even if the call later throws).  Hence
in the two-calls-within-the-window scenario the second call sees
`lastForcedAt = t1` no matter whether the first call's slow setter has
resolved yet, and performs no setter call; a third call after the window
performs the second setter call. -/
theorem c6_throttle_one_setter_call :
    (∀ (leaf : LeafModel) (now : Int), (ensurePreview leaf now).setterCalls ≠ [] →
      (ensurePreview leaf now).newLast = now) ∧
    (∀ (f : FileModel) (mode : Option String) (ft : Bool) (last t1 t2 t3 : Int),
      mode ≠ some "preview" →
      t1 - last ≥ LEAF_FORCE_PREVIEW_THROTTLE_MS →
      t2 - t1 < LEAF_FORCE_PREVIEW_THROTTLE_MS →
      t3 - t1 ≥ LEAF_FORCE_PREVIEW_THROTTLE_MS →
      ensurePreview ⟨true, some f, mode, "markdown", last, false, ft⟩ t1 =
        ⟨[true], t1, false⟩ ∧
      ensurePreview ⟨true, some f, mode, "markdown", t1, false, ft⟩ t2 = ⟨[], t1, false⟩ ∧
      ensurePreview ⟨true, some f, mode, "markdown", t1, false, ft⟩ t3 =
        ⟨[true], t3, false⟩) :=
  ⟨ensurePreview_records_before_setter, ensurePreview_throttle_chain⟩

/-- C6, witness: concrete times 1000, 1100, 1200 with the 120 ms window —
one setter call, then none, then one. -/
theorem c6_throttle_one_setter_call_witness :
    (ensurePreview ⟨true, some ⟨"docs/a.md", "md"⟩, some "source", "markdown", 0, false, false⟩
        1000).newLast = 1000 ∧
    ensurePreview ⟨true, some ⟨"docs/a.md", "md"⟩, some "source", "markdown", 1000, false, false⟩
        1100 = ⟨[], 1000, false⟩ :=
  ⟨c6_throttle_one_setter_call.1
      ⟨true, some ⟨"docs/a.md", "md"⟩, some "source", "markdown", 0, false, false⟩ 1000
      (by decide),
   (c6_throttle_one_setter_call.2 ⟨"docs/a.md", "md"⟩ (some "source") false 0 1000 1100 1200
      (by decide) (by decide) (by decide) (by decide)).2.1⟩

/-- C4 (corrected): the universally quantified exclude-wins invariant holds
for the raw rule lists `shouldForceReadOnly` actually evaluates: whenever at
least one raw include rule and at least one raw exclude rule of the
settings match the normalized path, the decision is `false`; the spec's
concrete scenario 3 (glob include `project_a/**`, exclude
`project_a/patterns/**`) behaves as stated. -/
theorem c4_exclude_wins_amended :
    (∀ (p : String) (s : ForceReadModeSettings),
      s.includeRules.any (fun rule => matchPath (normalizeVaultPath p) rule
        ⟨s.useGlobPatterns, s.caseSensitive⟩) = true →
      s.excludeRules.any (fun rule => matchPath (normalizeVaultPath p) rule
        ⟨s.useGlobPatterns, s.caseSensitive⟩) = true →
      shouldForceReadOnly p s = false) ∧
    shouldForceReadOnly "project_a/patterns/saga.md"
      ⟨true, true, true, false, false, ["project_a/**"], ["project_a/patterns/**"]⟩ = false ∧
    shouldForceReadOnly "project_a/other/file.md"
      ⟨true, true, true, false, false, ["project_a/**"], ["project_a/patterns/**"]⟩ = true := by
  refine ⟨?_, by decide, by decide⟩
  intro p s _hinc hexc
  simp only [shouldForceReadOnly, hexc]
  simp

/-- C4, witness: the amended exclude-wins implication applied at a
concrete path and settings where both rule lists match. -/
theorem c4_exclude_wins_witness :
    shouldForceReadOnly "docs/x.md"
      ⟨true, false, true, false, false, ["docs"], ["docs"]⟩ = false :=
  c4_exclude_wins_amended.1 "docs/x.md"
    ⟨true, false, true, false, false, ["docs"], ["docs"]⟩ (by decide) (by decide)

/-- C4, counterexample to the claim as stated: with include `a.md` and
exclude `./ a.md` in prefix mode, the *effective* exclude rule ` a.md`
(note the leading space kept by `normalizeVaultPath`) matches path `a.md`
once `matchPath` re-normalizes it, and the effective include rule matches
too, yet `shouldForceReadOnly` — which matches the raw rule `./ a.md`,
whose single normalization ` a.md` is not a prefix of `a.md` — returns
`true`, not `false`. -/
theorem c4_exclude_wins_counterexample :
    ((buildEffectiveRules ["a.md"] ["./ a.md"]).effectiveIncludeRules.any
      (fun rule => matchPath "a.md" rule ⟨false, true⟩) = true) ∧
    ((buildEffectiveRules ["a.md"] ["./ a.md"]).effectiveExcludeRules.any
      (fun rule => matchPath "a.md" rule ⟨false, true⟩) = true) ∧
    shouldForceReadOnly "a.md"
      ⟨true, false, true, false, false, ["a.md"], ["./ a.md"]⟩ = true := by
  refine ⟨by decide, by decide, by decide⟩

/-- C9 (confirmed): in prefix mode, a normalized case-folded rule with no
`*`/`?`, no trailing `/` and no `.md` suffix is compared with a trailing
`/` appended, by a plain starts-with test on the normalized case-folded
path; rules with a wildcard, a trailing `/` or a `.md` suffix are used
unchanged; concretely, rule `docs` matches `docs/readme.md` and not
`docsextra/readme.md`. -/
theorem c9_prefix_mode_folder_hint :
    (∀ (p rule : String) (cs : Bool),
      normalizeForCase (normalizeVaultPath rule) cs ≠ "" →
      strContainsChar (normalizeForCase (normalizeVaultPath rule) cs) '*' = false →
      strContainsChar (normalizeForCase (normalizeVaultPath rule) cs) '?' = false →
      strEndsWith (normalizeForCase (normalizeVaultPath rule) cs) "/" = false →
      strEndsWith (normalizeForCase (normalizeVaultPath rule) cs) ".md" = false →
      matchPath p rule ⟨false, cs⟩ =
        strStartsWith (normalizeForCase (normalizeVaultPath p) cs)
          (normalizeForCase (normalizeVaultPath rule) cs ++ "/")) ∧
    (∀ (p rule : String) (cs : Bool),
      normalizeForCase (normalizeVaultPath rule) cs ≠ "" →
      (strContainsChar (normalizeForCase (normalizeVaultPath rule) cs) '*' ||
       strContainsChar (normalizeForCase (normalizeVaultPath rule) cs) '?' ||
       strEndsWith (normalizeForCase (normalizeVaultPath rule) cs) "/" ||
       strEndsWith (normalizeForCase (normalizeVaultPath rule) cs) ".md") = true →
      matchPath p rule ⟨false, cs⟩ =
        strStartsWith (normalizeForCase (normalizeVaultPath p) cs)
          (normalizeForCase (normalizeVaultPath rule) cs)) ∧
    matchPath "docs/readme.md" "docs" ⟨false, true⟩ = true ∧
    matchPath "docsextra/readme.md" "docs" ⟨false, true⟩ = false := by
  refine ⟨?_, ?_, by decide, by decide⟩
  · intro p rule cs h0 h1 h2 h3 h4
    simp only [matchPath, applyPrefixModeRuleNormalization, h1, h2, h3, h4]
    by_cases hp : normalizeForCase (normalizeVaultPath p) cs = ""
    · rw [hp]
      simp only [h0]
      rw [strStartsWith_empty_of_ne _ (append_slash_ne_empty _)]
      simp
    · simp [hp, h0]
  · intro p rule cs h0 h5
    have happ : applyPrefixModeRuleNormalization (normalizeForCase (normalizeVaultPath rule) cs) =
        normalizeForCase (normalizeVaultPath rule) cs := by
      unfold applyPrefixModeRuleNormalization
      simp only [Bool.or_assoc] at h5 ⊢
      rw [if_pos h5]
    simp only [matchPath, happ]
    by_cases hp : normalizeForCase (normalizeVaultPath p) cs = ""
    · rw [hp]
      simp only [h0]
      rw [strStartsWith_empty_of_ne _ h0]
      simp
    · simp [hp, h0]

/-- C9, witness: the folder-hint equation applied to rule `docs` and path
`docs/readme.md` in case-sensitive prefix mode. -/
theorem c9_prefix_mode_folder_hint_witness :
    matchPath "docs/readme.md" "docs" ⟨false, true⟩ =
      strStartsWith (normalizeForCase (normalizeVaultPath "docs/readme.md") true)
        (normalizeForCase (normalizeVaultPath "docs") true ++ "/") :=
  c9_prefix_mode_folder_hint.1 "docs/readme.md" "docs" true
    (by decide) (by decide) (by decide) (by decide) (by decide)

/-- C10 (corrected): the pre-normalization invariance holds exactly at the
paths where `normalizeVaultPath` is idempotent — there both `matchPath`
and `shouldForceReadOnly` are unchanged by pre-normalizing the path
argument; `normalizeVaultPath` is not idempotent in general. -/
theorem c10_normalization_invariance_amended (p r : String) (o : MatchPathOptions)
    (s : ForceReadModeSettings)
    (h : normalizeVaultPath (normalizeVaultPath p) = normalizeVaultPath p) :
    matchPath (normalizeVaultPath p) r o = matchPath p r o ∧
    shouldForceReadOnly (normalizeVaultPath p) s = shouldForceReadOnly p s := by
  constructor
  · simp only [matchPath, h]
  · simp only [shouldForceReadOnly, h]

/-- C10, witness: invariance at the already-idempotent path `docs/a.md`. -/
theorem c10_normalization_invariance_witness :
    matchPath (normalizeVaultPath "docs/a.md") "docs" ⟨false, true⟩ =
      matchPath "docs/a.md" "docs" ⟨false, true⟩ ∧
    shouldForceReadOnly (normalizeVaultPath "docs/a.md")
      ⟨true, false, true, false, false, ["docs"], []⟩ =
      shouldForceReadOnly "docs/a.md" ⟨true, false, true, false, false, ["docs"], []⟩ :=
  c10_normalization_invariance_amended "docs/a.md" "docs" ⟨false, true⟩
    ⟨true, false, true, false, false, ["docs"], []⟩ (by decide)

/-- C10, counterexample to the claim as stated: at path `./ a.md`
normalization is not idempotent (`./ a.md` → ` a.md` → `a.md`), and
`matchPath` on the pre-normalized path differs from `matchPath` on the raw
path for rule `a.md` in prefix mode. -/
theorem c10_normalization_invariance_counterexample :
    matchPath (normalizeVaultPath "./ a.md") "a.md" ⟨false, true⟩ = true ∧
    matchPath "./ a.md" "a.md" ⟨false, true⟩ = false := by
  exact ⟨by decide, by decide⟩

end ReadOnlyView
